import Mathlib

/-!
Verification of a fixed-capacity circular (ring) buffer.

The buffer stores float64 samples; here the numeric values are modelled as
rationals (ℚ), which represent the integral sample values of the claims
exactly.  Go panics (out-of-range slice index, `%` by zero) are modelled by
returning `none`: every slot read, slot write and modulo operation is
bounds-checked, exactly where the Go runtime checks it.  The `sync.RWMutex`
field only serialises calls and carries no data, so it has no counterpart in
the state.
-/

/-- The state of `CircularBuffer` from `main.go`: backing slice, fixed size,
head (next write position), tail (oldest element), count of live elements. -/
structure CircularBuffer where
  buffer : List ℚ
  size : ℕ
  head : ℕ
  tail : ℕ
  count : ℕ
deriving DecidableEq, Repr

/-- Constructor `NewCircularBuffer`: `make([]float64, size)` yields `size` zero slots;
the remaining fields start at their zero values. -/
def NewCircularBuffer (size : ℕ) : CircularBuffer :=
  { buffer := List.replicate size 0, size := size, head := 0, tail := 0, count := 0 }

/-- Go's `a % b` on the non-negative operands used here; panics (`none`)
when `b = 0`, as the Go runtime does. -/
def goMod (a b : ℕ) : Option ℕ :=
  if b = 0 then none else some (a % b)

/-- Reading `l[i]` in Go: panics (`none`) when `i` is out of range. -/
def readSlot (l : List ℚ) (i : ℕ) : Option ℚ :=
  l.get? i

/-- Writing `l[i] = v` in Go: panics (`none`) when `i` is out of range. -/
def writeSlot (l : List ℚ) (i : ℕ) (v : ℚ) : Option (List ℚ) :=
  if i < l.length then some (l.set i v) else none

/-- Model of `Push` from `main.go`: if the buffer is full, the oldest element (slot
`tail`) is popped and `tail` advances; otherwise `count` increments.  The new
item is then written at `head` and `head` advances.  Returns the popped item
(the zero value `0` when nothing was popped) together with the new state. -/
def Push (cb : CircularBuffer) (item : ℚ) : Option (ℚ × CircularBuffer) := do
  let (poppedItem, cb₁) ←
    if cb.count = cb.size then do
      let p ← readSlot cb.buffer cb.tail
      let t ← goMod (cb.tail + 1) cb.size
      pure (p, { cb with tail := t })
    else
      pure ((0 : ℚ), { cb with count := cb.count + 1 })
  let buf ← writeSlot cb₁.buffer cb₁.head item
  let h ← goMod (cb₁.head + 1) cb₁.size
  pure (poppedItem, { cb₁ with buffer := buf, head := h })

/-- Model of `Pop` from `main.go`: on an empty buffer returns `(0, false)` without
touching the state; otherwise reads the slot at `tail`, advances `tail`,
decrements `count` and returns `(item, true)`. -/
def Pop (cb : CircularBuffer) : Option ((ℚ × Bool) × CircularBuffer) :=
  if cb.count = 0 then
    some (((0 : ℚ), false), cb)
  else do
    let item ← readSlot cb.buffer cb.tail
    let t ← goMod (cb.tail + 1) cb.size
    pure ((item, true), { cb with tail := t, count := cb.count - 1 })

/-- Model of `Average` from `main.go`: `0` on an empty buffer, otherwise the loop
`for i := 0; i < count; i++ { sum += buffer[(tail+i) % size] }` followed by
`sum / float64(count)`. -/
def Average (cb : CircularBuffer) : Option ℚ :=
  if cb.count = 0 then
    some 0
  else do
    let sum ← (List.range cb.count).foldlM
      (fun (s : ℚ) (i : ℕ) => do
        let idx ← goMod (cb.tail + i) cb.size
        let v ← readSlot cb.buffer idx
        pure (s + v)) (0 : ℚ)
    pure (sum / (cb.count : ℚ))

/-- The sequence of values visited by `PrintBuffer` from `main.go` (the
spec's `Snapshot`): the empty sequence on an empty buffer, otherwise the
elements at `(tail + i) % size` for `i` in `[0, count)`, oldest to newest. -/
def Snapshot (cb : CircularBuffer) : Option (List ℚ) :=
  if cb.count = 0 then
    some []
  else
    (List.range cb.count).mapM
      (fun i => do
        let idx ← goMod (cb.tail + i) cb.size
        readSlot cb.buffer idx)

/-- A single client-visible mutating call. -/
inductive Op where
  | insert : ℚ → Op
  | removeOldest : Op
deriving DecidableEq, Repr

/-- Execute one mutating call, keeping only the state. -/
def runOp (cb : CircularBuffer) : Op → Option CircularBuffer
  | .insert v => (Push cb v).map Prod.snd
  | .removeOldest => (Pop cb).map Prod.snd

/-- Execute a sequence of mutating calls from a given state. -/
def run (cb : CircularBuffer) : List Op → Option CircularBuffer
  | [] => some cb
  | op :: ops => (runOp cb op).bind (fun cb₁ => run cb₁ ops)

/-- Push a list of values in order, keeping only the state. -/
def pushAll (cb : CircularBuffer) : List ℚ → Option CircularBuffer
  | [] => some cb
  | v :: vs => (Push cb v).bind (fun p => pushAll p.2 vs)

/-- The state invariant: the backing slice has exactly `size` slots, the
size is positive, at most `size` elements are live, both indices are in
range, and `head` sits `count` slots past `tail`, modulo `size`. -/
def Invariant (cb : CircularBuffer) : Prop :=
  0 < cb.size ∧ cb.buffer.length = cb.size ∧ cb.count ≤ cb.size ∧
    cb.head < cb.size ∧ cb.tail < cb.size ∧
    cb.head = (cb.tail + cb.count) % cb.size

/-- The live contents, oldest to newest: the element at `(tail + i) % size`
for each `i` in `[0, count)`. -/
def snapList (cb : CircularBuffer) : List ℚ :=
  (List.range cb.count).map (fun i => cb.buffer.getD ((cb.tail + i) % cb.size) 0)

/-! Helper lemmas -/

theorem mapM_eq_some_map {α β : Type} (g : α → Option β) (f : α → β) :
    ∀ (l : List α), (∀ a ∈ l, g a = some (f a)) → l.mapM g = some (l.map f) := by
  intro l
  induction l with
  | nil => intro _; rfl
  | cons a l ih =>
    intro h
    rw [List.mapM_cons, h a (List.mem_cons_self a l),
      ih (fun b hb => h b (List.mem_cons_of_mem a hb))]
    rfl

theorem foldlM_eq_some_foldl {α β : Type} (g : β → α → Option β) (f : β → α → β) :
    ∀ (l : List α) (b : β), (∀ b₀ a, a ∈ l → g b₀ a = some (f b₀ a)) →
      l.foldlM g b = some (l.foldl f b) := by
  intro l
  induction l with
  | nil => intro _ _; rfl
  | cons a l ih =>
    intro b h
    rw [List.foldlM_cons, h b a (List.mem_cons_self a l)]
    exact ih (f b a) (fun b₀ a₀ ha₀ => h b₀ a₀ (List.mem_cons_of_mem a ha₀))

/-- Two offsets below `s` land on distinct slots. -/
theorem add_mod_ne {s : ℕ} (t : ℕ) {i j : ℕ} (hi : i < s) (hj : j < s) (hij : i ≠ j) :
    (t + i) % s ≠ (t + j) % s := by
  intro h
  have hmod : i % s = j % s := Nat.ModEq.add_left_cancel' t h
  rw [Nat.mod_eq_of_lt hi, Nat.mod_eq_of_lt hj] at hmod
  exact hij hmod

/-- Running `Push` on a full, well-formed buffer: the slot at `tail` is popped,
`tail` and `head` advance, `count` is unchanged, the item lands at `head`. -/
theorem Push_full (cb : CircularBuffer) (v : ℚ)
    (hlen : cb.buffer.length = cb.size) (hs : 0 < cb.size)
    (hh : cb.head < cb.size) (ht : cb.tail < cb.size)
    (hc : cb.count = cb.size) :
    Push cb v = some (cb.buffer.getD cb.tail 0,
      ⟨cb.buffer.set cb.head v, cb.size, (cb.head + 1) % cb.size,
        (cb.tail + 1) % cb.size, cb.count⟩) := by
  have hread : readSlot cb.buffer cb.tail = some (cb.buffer.getD cb.tail 0) := by
    have htl : cb.tail < cb.buffer.length := by omega
    simp [readSlot, List.get?_eq_getElem?, List.getElem?_eq_getElem htl,
      List.getD_eq_getElem?_getD]
  simp [Push, hc, hread, goMod, writeSlot, Nat.pos_iff_ne_zero.mp hs, hlen, hh]

/-- Running `Push` on a non-full, well-formed buffer: nothing is popped (the zero
value is returned), `count` increments, the item lands at `head`. -/
theorem Push_notFull (cb : CircularBuffer) (v : ℚ)
    (hlen : cb.buffer.length = cb.size) (hs : 0 < cb.size)
    (hh : cb.head < cb.size) (hc : cb.count ≠ cb.size) :
    Push cb v = some (0,
      ⟨cb.buffer.set cb.head v, cb.size, (cb.head + 1) % cb.size,
        cb.tail, cb.count + 1⟩) := by
  simp [Push, hc, goMod, writeSlot, Nat.pos_iff_ne_zero.mp hs, hlen, hh]

/-- Running `Pop` on a non-empty, well-formed buffer: the slot at `tail` is
returned with `true`, `tail` advances, `count` decrements. -/
theorem Pop_nonempty (cb : CircularBuffer)
    (hlen : cb.buffer.length = cb.size) (hs : 0 < cb.size)
    (ht : cb.tail < cb.size) (hc : 0 < cb.count) :
    Pop cb = some ((cb.buffer.getD cb.tail 0, true),
      ⟨cb.buffer, cb.size, cb.head, (cb.tail + 1) % cb.size, cb.count - 1⟩) := by
  have hread : readSlot cb.buffer cb.tail = some (cb.buffer.getD cb.tail 0) := by
    have htl : cb.tail < cb.buffer.length := by omega
    simp [readSlot, List.get?_eq_getElem?, List.getElem?_eq_getElem htl,
      List.getD_eq_getElem?_getD]
  simp [Pop, Nat.pos_iff_ne_zero.mp hc, hread, goMod, Nat.pos_iff_ne_zero.mp hs]

/-- Running `Pop` on an empty buffer: `(0, false)`, state untouched, no panic. -/
theorem Pop_empty (cb : CircularBuffer) (hc : cb.count = 0) :
    Pop cb = some ((0, false), cb) := by
  simp [Pop, hc]

theorem Invariant_new {k : ℕ} (hk : 0 < k) : Invariant (NewCircularBuffer k) := by
  refine ⟨hk, by simp [NewCircularBuffer], by simp [NewCircularBuffer], ?_, ?_, ?_⟩ <;>
    simp [NewCircularBuffer, hk, Nat.zero_mod]

theorem Invariant_push_notFull (cb : CircularBuffer) (v : ℚ)
    (hinv : Invariant cb) (hc : cb.count < cb.size) :
    Invariant ⟨cb.buffer.set cb.head v, cb.size, (cb.head + 1) % cb.size,
      cb.tail, cb.count + 1⟩ := by
  obtain ⟨hs, hlen, hcs, hh, ht, hht⟩ := hinv
  unfold Invariant
  dsimp only
  refine ⟨hs, by simpa using hlen, by omega, Nat.mod_lt _ hs, ht, ?_⟩
  simp only [hht, Nat.mod_add_mod, Nat.add_assoc]

theorem Invariant_push_full (cb : CircularBuffer) (v : ℚ)
    (hinv : Invariant cb) (hc : cb.count = cb.size) :
    Invariant ⟨cb.buffer.set cb.head v, cb.size, (cb.head + 1) % cb.size,
      (cb.tail + 1) % cb.size, cb.count⟩ := by
  obtain ⟨hs, hlen, hcs, hh, ht, hht⟩ := hinv
  unfold Invariant
  dsimp only
  refine ⟨hs, by simpa using hlen, hcs, Nat.mod_lt _ hs, Nat.mod_lt _ hs, ?_⟩
  simp only [hht, Nat.mod_add_mod]
  rw [Nat.add_right_comm]

theorem Invariant_pop (cb : CircularBuffer)
    (hinv : Invariant cb) (hc : 0 < cb.count) :
    Invariant ⟨cb.buffer, cb.size, cb.head, (cb.tail + 1) % cb.size,
      cb.count - 1⟩ := by
  obtain ⟨hs, hlen, hcs, hh, ht, hht⟩ := hinv
  unfold Invariant
  dsimp only
  refine ⟨hs, hlen, by omega, hh, Nat.mod_lt _ hs, ?_⟩
  simp only [hht, Nat.mod_add_mod]
  congr 1
  omega

/-- Any `Push` from an invariant state succeeds and preserves the invariant. -/
theorem Push_step (cb : CircularBuffer) (v : ℚ) (hinv : Invariant cb) :
    ∃ p cb', Push cb v = some (p, cb') ∧ Invariant cb' := by
  obtain ⟨hs, hlen, hcs, hh, ht, hht⟩ := hinv
  by_cases hc : cb.count = cb.size
  · exact ⟨_, _, Push_full cb v hlen hs hh ht hc,
      Invariant_push_full cb v ⟨hs, hlen, hcs, hh, ht, hht⟩ hc⟩
  · exact ⟨_, _, Push_notFull cb v hlen hs hh hc,
      Invariant_push_notFull cb v ⟨hs, hlen, hcs, hh, ht, hht⟩ (by omega)⟩

/-- Any `Pop` from an invariant state succeeds and preserves the invariant. -/
theorem Pop_step (cb : CircularBuffer) (hinv : Invariant cb) :
    ∃ r cb', Pop cb = some (r, cb') ∧ Invariant cb' := by
  obtain ⟨hs, hlen, hcs, hh, ht, hht⟩ := hinv
  by_cases hc : cb.count = 0
  · exact ⟨_, _, Pop_empty cb hc, ⟨hs, hlen, hcs, hh, ht, hht⟩⟩
  · exact ⟨_, _, Pop_nonempty cb hlen hs ht (by omega),
      Invariant_pop cb ⟨hs, hlen, hcs, hh, ht, hht⟩ (by omega)⟩

/-- Any sequence of calls from an invariant state succeeds and ends in an
invariant state. -/
theorem run_invariant (ops : List Op) :
    ∀ cb, Invariant cb → ∃ cb', run cb ops = some cb' ∧ Invariant cb' := by
  induction ops with
  | nil => exact fun cb h => ⟨cb, rfl, h⟩
  | cons op ops ih =>
    intro cb h
    cases op with
    | insert v =>
      obtain ⟨p, cb₁, hp, h₁⟩ := Push_step cb v h
      obtain ⟨cb', hrun, h'⟩ := ih cb₁ h₁
      exact ⟨cb', by simp [run, runOp, hp, hrun], h'⟩
    | removeOldest =>
      obtain ⟨r, cb₁, hp, h₁⟩ := Pop_step cb h
      obtain ⟨cb', hrun, h'⟩ := ih cb₁ h₁
      exact ⟨cb', by simp [run, runOp, hp, hrun], h'⟩

theorem snapList_new (k : ℕ) : snapList (NewCircularBuffer k) = [] := by
  simp [snapList, NewCircularBuffer]

/-- After a non-full `Push`, the live contents gain `v` at the newest end. -/
theorem snapList_push_notFull (cb : CircularBuffer) (v : ℚ)
    (hinv : Invariant cb) (hc : cb.count < cb.size) :
    snapList ⟨cb.buffer.set cb.head v, cb.size, (cb.head + 1) % cb.size,
      cb.tail, cb.count + 1⟩ = snapList cb ++ [v] := by
  obtain ⟨hs, hlen, hcs, hh, ht, hht⟩ := hinv
  unfold snapList
  dsimp only
  rw [List.range_succ, List.map_append]
  congr 1
  · apply List.map_congr_left
    intro i hi
    have hi' : i < cb.count := List.mem_range.mp hi
    have hne : cb.head ≠ (cb.tail + i) % cb.size := by
      rw [hht]
      exact add_mod_ne cb.tail (by omega) (by omega) (by omega)
    rw [List.getD_eq_getElem?_getD, List.getD_eq_getElem?_getD,
      List.getElem?_set_ne hne]
  · simp only [List.map_cons, List.map_nil]
    congr 1
    rw [← hht, List.getD_eq_getElem?_getD,
      List.getElem?_set_eq_of_lt v (by omega), Option.getD_some]

/-- After a full `Push`, the oldest element is dropped and `v` is appended. -/
theorem snapList_push_full (cb : CircularBuffer) (v : ℚ)
    (hinv : Invariant cb) (hc : cb.count = cb.size) :
    snapList ⟨cb.buffer.set cb.head v, cb.size, (cb.head + 1) % cb.size,
      (cb.tail + 1) % cb.size, cb.count⟩ = (snapList cb).tail ++ [v] := by
  obtain ⟨hs, hlen, hcs, hh, ht, hht⟩ := hinv
  have hhead : cb.head = cb.tail := by
    rw [hht, hc, Nat.add_mod_right, Nat.mod_eq_of_lt ht]
  obtain ⟨m, hm⟩ : ∃ m, cb.count = m + 1 := ⟨cb.count - 1, by omega⟩
  have hsm : cb.size = m + 1 := by omega
  unfold snapList
  dsimp only
  rw [hm]
  conv_rhs => rw [List.range_succ_eq_map]
  rw [List.map_cons, List.tail_cons, List.map_map, List.range_succ,
    List.map_append]
  congr 1
  · apply List.map_congr_left
    intro i hi
    have hi' : i < m := List.mem_range.mp hi
    have hne : cb.head ≠ ((cb.tail + 1) % cb.size + i) % cb.size := by
      have h2 : (cb.tail + 0) % cb.size ≠ (cb.tail + (1 + i)) % cb.size :=
        add_mod_ne cb.tail (show 0 < cb.size by omega)
          (show 1 + i < cb.size by omega) (by omega)
      rw [Nat.add_zero, Nat.mod_eq_of_lt ht] at h2
      rw [hhead, Nat.mod_add_mod, Nat.add_assoc]
      exact h2
    simp only [Function.comp]
    rw [List.getD_eq_getElem?_getD, List.getD_eq_getElem?_getD,
      List.getElem?_set_ne hne, Nat.mod_add_mod, Nat.add_assoc,
      Nat.succ_eq_add_one, Nat.add_comm 1 i]
  · simp only [List.map_cons, List.map_nil]
    congr 1
    have hidx : ((cb.tail + 1) % cb.size + m) % cb.size = cb.head := by
      rw [Nat.mod_add_mod, Nat.add_assoc]
      have : 1 + m = cb.size := by omega
      rw [this, Nat.add_mod_right, Nat.mod_eq_of_lt ht, hhead]
    rw [hidx, List.getD_eq_getElem?_getD,
      List.getElem?_set_eq_of_lt v (by omega), Option.getD_some]

/-- After a non-empty `Pop`, the live contents lose the oldest element. -/
theorem snapList_pop (cb : CircularBuffer)
    (hinv : Invariant cb) (hc : 0 < cb.count) :
    snapList ⟨cb.buffer, cb.size, cb.head, (cb.tail + 1) % cb.size,
      cb.count - 1⟩ = (snapList cb).tail := by
  obtain ⟨hs, hlen, hcs, hh, ht, hht⟩ := hinv
  obtain ⟨m, hm⟩ : ∃ m, cb.count = m + 1 := ⟨cb.count - 1, by omega⟩
  unfold snapList
  dsimp only
  rw [hm, Nat.add_sub_cancel, List.range_succ_eq_map, List.map_cons,
    List.tail_cons, List.map_map]
  apply List.map_congr_left
  intro i hi
  simp only [Function.comp]
  rw [Nat.mod_add_mod, Nat.add_assoc, Nat.succ_eq_add_one, Nat.add_comm 1 i]

/-- The oldest live element is the slot at `tail`. -/
theorem snapList_getD_zero (cb : CircularBuffer)
    (hinv : Invariant cb) (hc : 0 < cb.count) :
    (snapList cb).getD 0 0 = cb.buffer.getD cb.tail 0 := by
  obtain ⟨hs, hlen, hcs, hh, ht, hht⟩ := hinv
  obtain ⟨m, hm⟩ : ∃ m, cb.count = m + 1 := ⟨cb.count - 1, by omega⟩
  unfold snapList
  rw [hm, List.range_succ_eq_map, List.map_cons, List.getD_cons_zero,
    Nat.add_zero, Nat.mod_eq_of_lt ht]

/-- The traversal of `PrintBuffer` visits exactly the live contents, oldest to
newest. -/
theorem Snapshot_eq_snapList (cb : CircularBuffer)
    (hlen : cb.buffer.length = cb.size) (hs : 0 < cb.size) :
    Snapshot cb = some (snapList cb) := by
  by_cases hc : cb.count = 0
  · simp [Snapshot, snapList, hc]
  · unfold Snapshot snapList
    rw [if_neg hc]
    apply mapM_eq_some_map
    intro i _
    have hidx : (cb.tail + i) % cb.size < cb.buffer.length := by
      rw [hlen]; exact Nat.mod_lt _ hs
    simp [goMod, Nat.pos_iff_ne_zero.mp hs, readSlot, List.get?_eq_getElem?,
      List.getElem?_eq_getElem hidx, List.getD_eq_getElem?_getD]

/-- Lemma: `Average` returns `0` on an empty buffer and otherwise the sum of the
live contents, oldest to newest, divided by their number. -/
theorem Average_eq (cb : CircularBuffer)
    (hlen : cb.buffer.length = cb.size) (hs : 0 < cb.size) :
    Average cb
      = some (if cb.count = 0 then 0 else (snapList cb).sum / (cb.count : ℚ)) := by
  by_cases hc : cb.count = 0
  · simp [Average, hc]
  · unfold Average
    rw [if_neg hc, if_neg hc]
    have hfold : (List.range cb.count).foldlM
        (fun (s : ℚ) (i : ℕ) => do
          let idx ← goMod (cb.tail + i) cb.size
          let v ← readSlot cb.buffer idx
          pure (s + v)) (0 : ℚ)
        = some ((List.range cb.count).foldl
            (fun (s : ℚ) (i : ℕ) =>
              s + cb.buffer.getD ((cb.tail + i) % cb.size) 0) 0) := by
      apply foldlM_eq_some_foldl
      intro b i _
      have hidx : (cb.tail + i) % cb.size < cb.buffer.length := by
        rw [hlen]; exact Nat.mod_lt _ hs
      simp [goMod, Nat.pos_iff_ne_zero.mp hs, readSlot, List.get?_eq_getElem?,
        List.getElem?_eq_getElem hidx, List.getD_eq_getElem?_getD]
    have hsum : (snapList cb).sum
        = (List.range cb.count).foldl
            (fun (s : ℚ) (i : ℕ) =>
              s + cb.buffer.getD ((cb.tail + i) % cb.size) 0) 0 := by
      rw [snapList, List.sum_eq_foldl, List.foldl_map]
    rw [hfold, hsum]
    rfl

/-- Pushing `vs` into a buffer with room for all of it appends `vs` to the
live contents and grows `count` accordingly. -/
theorem pushAll_fill (vs : List ℚ) :
    ∀ cb, Invariant cb → cb.count + vs.length ≤ cb.size →
      ∃ cb', pushAll cb vs = some cb' ∧ Invariant cb' ∧
        cb'.size = cb.size ∧ cb'.count = cb.count + vs.length ∧
        snapList cb' = snapList cb ++ vs := by
  induction vs with
  | nil => exact fun cb h _ => ⟨cb, rfl, h, rfl, by simp, by simp⟩
  | cons v vs ih =>
    intro cb h hle
    obtain ⟨hs, hlen, hcs, hh, ht, hht⟩ := h
    have hc : cb.count < cb.size := by
      simp only [List.length_cons] at hle; omega
    have hpush := Push_notFull cb v hlen hs hh (by omega)
    have hinv₁ := Invariant_push_notFull cb v ⟨hs, hlen, hcs, hh, ht, hht⟩ hc
    have hsnap₁ := snapList_push_notFull cb v ⟨hs, hlen, hcs, hh, ht, hht⟩ hc
    obtain ⟨cb', hrun, hinv', hsize, hcount, hsnap⟩ :=
      ih ⟨cb.buffer.set cb.head v, cb.size, (cb.head + 1) % cb.size,
        cb.tail, cb.count + 1⟩ hinv₁
        (by simp only [List.length_cons] at hle; dsimp only; omega)
    refine ⟨cb', by simp [pushAll, hpush, hrun], hinv', by rw [hsize], ?_, ?_⟩
    · rw [hcount]
      simp only [List.length_cons]
      omega
    · rw [hsnap, hsnap₁, List.append_assoc]
      rfl

/-- Push a list of values in order, recording for each call the returned
item together with the value of the branch condition `count == size` (true
exactly when that call popped an element). -/
def pushTrace (cb : CircularBuffer) : List ℚ → Option (List (ℚ × Bool) × CircularBuffer)
  | [] => some ([], cb)
  | v :: vs => do
    let (p, cb₁) ← Push cb v
    let (rest, cbF) ← pushTrace cb₁ vs
    pure ((p, cb.count == cb.size) :: rest, cbF)

/-- A call of `Average` as the caller sees it: the method takes only a read
lock and assigns no field, so the receiver after the call is the receiver
before it, paired with the computed value. -/
def AverageCall (cb : CircularBuffer) : Option (ℚ × CircularBuffer) :=
  (Average cb).map (fun a => (a, cb))

/-- A call of `PrintBuffer`/`Snapshot` as the caller sees it: read lock
only, no field assignment, receiver unchanged. -/
def SnapshotCall (cb : CircularBuffer) : Option (List ℚ × CircularBuffer) :=
  (Snapshot cb).map (fun s => (s, cb))

/-! Claims -/

/-- Claim C1: from any buffer constructed with capacity `k > 0`, every
sequence of Insert (`Push`) and RemoveOldest (`Pop`) calls succeeds, and
after each call the state invariant holds: `0 ≤ count ≤ capacity`, both
indices are in range, the live elements are the slots `(tail + i) %
capacity` for `i < count` (the reading made precise by `snapList`) with
`head = (tail + count) % capacity`, and when `count = capacity`,
`head = tail`.  Since `ops` ranges over all call sequences, every prefix of
a sequence is itself covered, i.e. the invariant holds after each call. -/
theorem C1_invariant_all_sequences (k : ℕ) (hk : 0 < k) (ops : List Op) :
    ∃ cb, run (NewCircularBuffer k) ops = some cb ∧ Invariant cb ∧
      (cb.count = cb.size → cb.head = cb.tail) := by
  obtain ⟨cb, hrun, hinv⟩ :=
    run_invariant ops (NewCircularBuffer k) (Invariant_new hk)
  refine ⟨cb, hrun, hinv, ?_⟩
  intro hc
  obtain ⟨hs, hlen, hcs, hh, ht, hht⟩ := hinv
  rw [hht, hc, Nat.add_mod_right, Nat.mod_eq_of_lt ht]

theorem C1_witness :
    ∃ cb, run (NewCircularBuffer 3) [Op.insert 1, Op.removeOldest] = some cb ∧
      Invariant cb ∧ (cb.count = cb.size → cb.head = cb.tail) :=
  C1_invariant_all_sequences 3 (by decide) [Op.insert 1, Op.removeOldest]

/-- Claim C2: filling a fresh buffer of capacity `k > 0` with the values
`vs` (of length `k`) and then inserting one more value `vk` pops exactly the
first value of `vs`, and the snapshot afterwards is the remaining values
followed by `vk`, in order. -/
theorem C2_fifo_eviction (k : ℕ) (hk : 0 < k) (vs : List ℚ)
    (hlen : vs.length = k) (vk : ℚ) :
    ∃ cb cbF, pushAll (NewCircularBuffer k) vs = some cb ∧
      Push cb vk = some (vs.getD 0 0, cbF) ∧
      Snapshot cbF = some (vs.tail ++ [vk]) := by
  obtain ⟨cb, hrun, hinv, hsize, hcount, hsnap⟩ :=
    pushAll_fill vs (NewCircularBuffer k) (Invariant_new hk)
      (by simp [NewCircularBuffer, hlen])
  rw [snapList_new, List.nil_append] at hsnap
  obtain ⟨hs, hblen, hcs, hh, ht, hht⟩ := hinv
  have hsize' : cb.size = k := by simpa [NewCircularBuffer] using hsize
  have hcount' : cb.count = k := by simpa [NewCircularBuffer, hlen] using hcount
  have hfull : cb.count = cb.size := by omega
  have hpush := Push_full cb vk hblen hs hh ht hfull
  have hsnapF := snapList_push_full cb vk ⟨hs, hblen, hcs, hh, ht, hht⟩ hfull
  have hev : cb.buffer.getD cb.tail 0 = vs.getD 0 0 := by
    rw [← snapList_getD_zero cb ⟨hs, hblen, hcs, hh, ht, hht⟩ (by omega), hsnap]
  refine ⟨cb, ⟨cb.buffer.set cb.head vk, cb.size, (cb.head + 1) % cb.size,
    (cb.tail + 1) % cb.size, cb.count⟩, hrun, ?_, ?_⟩
  · rw [hpush, hev]
  · have hlenF : (⟨cb.buffer.set cb.head vk, cb.size, (cb.head + 1) % cb.size,
        (cb.tail + 1) % cb.size, cb.count⟩ : CircularBuffer).buffer.length
        = cb.size := by
      simp [hblen]
    rw [Snapshot_eq_snapList _ hlenF hs, hsnapF, hsnap]

theorem C2_witness :
    ∃ cb cbF, pushAll (NewCircularBuffer 2) [5, 7] = some cb ∧
      Push cb 9 = some (([5, 7] : List ℚ).getD 0 0, cbF) ∧
      Snapshot cbF = some (([5, 7] : List ℚ).tail ++ [9]) :=
  C2_fifo_eviction 2 (by decide) [5, 7] rfl 9

/-- Claim C3: with capacity `5` and pushes `0,1,2,3,4,5,6` in order, the
first five calls take the non-full branch and return the zero value (no
pop), the sixth call pops `0`, the seventh pops `1`, the final contents
oldest-to-newest are `[2,3,4,5,6]`, and the final average is `4`. -/
theorem C3_end_to_end :
    pushTrace (NewCircularBuffer 5) [0, 1, 2, 3, 4, 5, 6]
        = some ([(0, false), (0, false), (0, false), (0, false), (0, false),
            (0, true), (1, true)], ⟨[5, 6, 2, 3, 4], 5, 2, 2, 5⟩) ∧
      Snapshot ⟨[5, 6, 2, 3, 4], 5, 2, 2, 5⟩ = some [2, 3, 4, 5, 6] ∧
      Average ⟨[5, 6, 2, 3, 4], 5, 2, 2, 5⟩ = some 4 := by
  refine ⟨by decide, by decide, ?_⟩
  rw [Average_eq ⟨[5, 6, 2, 3, 4], 5, 2, 2, 5⟩ rfl (by decide)]
  norm_num [snapList, List.range_succ]

/-- Claim C4: on a well-formed buffer with positive capacity, `Push` when
full pops the slot at `tail`, advances `tail`, and keeps `count`; otherwise
it pops nothing (returns the zero value) and increments `count`.  In both
cases the item is written into slot `head` and `head` advances modulo the
capacity. -/
theorem C4_push_spec (cb : CircularBuffer) (v : ℚ)
    (hs : 0 < cb.size) (hlen : cb.buffer.length = cb.size)
    (hh : cb.head < cb.size) (ht : cb.tail < cb.size) :
    (cb.count = cb.size →
      Push cb v = some (cb.buffer.getD cb.tail 0,
        ⟨cb.buffer.set cb.head v, cb.size, (cb.head + 1) % cb.size,
          (cb.tail + 1) % cb.size, cb.count⟩)) ∧
    (cb.count ≠ cb.size →
      Push cb v = some (0,
        ⟨cb.buffer.set cb.head v, cb.size, (cb.head + 1) % cb.size,
          cb.tail, cb.count + 1⟩)) :=
  ⟨fun hc => Push_full cb v hlen hs hh ht hc,
   fun hc => Push_notFull cb v hlen hs hh hc⟩

theorem C4_witness :
    Push ⟨[3, 4], 2, 0, 0, 2⟩ 9
      = some (([3, 4] : List ℚ).getD 0 0,
        ⟨([3, 4] : List ℚ).set 0 9, 2, (0 + 1) % 2, (0 + 1) % 2, 2⟩) :=
  (C4_push_spec ⟨[3, 4], 2, 0, 0, 2⟩ 9 (by decide) (by decide) (by decide)
    (by decide)).1 rfl

/-- Claim C5, refuted (code bug): the code's Insert returns only the bare
popped `float64` and no `didEvict` flag, so a call that pops nothing and a
call that pops a stored zero are indistinguishable to the caller: on an
empty capacity-2 buffer `Push 1` takes the non-full branch and returns `0`,
and on a full capacity-1 buffer holding `0` the same call takes the pop
branch and returns the identical `0`. -/
theorem C5_no_flag_conflation :
    (Push (NewCircularBuffer 2) 1).map Prod.fst = some 0 ∧
    (NewCircularBuffer 2).count ≠ (NewCircularBuffer 2).size ∧
    ∃ cb, pushAll (NewCircularBuffer 1) [0] = some cb ∧ cb.count = cb.size ∧
      (Push cb 1).map Prod.fst = some 0 :=
  ⟨by decide, by decide, ⟨[0], 1, 0, 0, 1⟩, by decide, by decide, by decide⟩

/-- Claim C6: `Pop` on a non-empty well-formed buffer returns the element
at slot `tail` with `true`, advances `tail` modulo the capacity, and
decrements `count`; `head`, the storage and the capacity are untouched. -/
theorem C6_pop_nonempty (cb : CircularBuffer)
    (hs : 0 < cb.size) (hlen : cb.buffer.length = cb.size)
    (ht : cb.tail < cb.size) (hc : 0 < cb.count) :
    Pop cb = some ((cb.buffer.getD cb.tail 0, true),
      ⟨cb.buffer, cb.size, cb.head, (cb.tail + 1) % cb.size, cb.count - 1⟩) :=
  Pop_nonempty cb hlen hs ht hc

theorem C6_witness :
    Pop ⟨[7, 8], 2, 0, 0, 2⟩
      = some ((([7, 8] : List ℚ).getD 0 0, true), ⟨[7, 8], 2, 0, (0 + 1) % 2, 2 - 1⟩) :=
  C6_pop_nonempty ⟨[7, 8], 2, 0, 0, 2⟩ (by decide) (by decide) (by decide)
    (by decide)

/-- Claim C7: `Pop` on an empty buffer returns the zero value with `false`
and the state completely unchanged; it always succeeds (never panics). -/
theorem C7_pop_empty (cb : CircularBuffer) (hc : cb.count = 0) :
    Pop cb = some ((0, false), cb) :=
  Pop_empty cb hc

theorem C7_witness :
    Pop (NewCircularBuffer 3) = some ((0, false), NewCircularBuffer 3) :=
  C7_pop_empty (NewCircularBuffer 3) rfl

/-- Claim C8: on a well-formed buffer, `Average` returns `0` when the
buffer is empty, and otherwise the sum of the `count` live elements taken
oldest-to-newest from `tail` with modulo wrap-around, divided by `count`. -/
theorem C8_average_spec (cb : CircularBuffer)
    (hlen : cb.buffer.length = cb.size) (hs : 0 < cb.size) :
    Average cb
      = some (if cb.count = 0 then 0 else (snapList cb).sum / (cb.count : ℚ)) :=
  Average_eq cb hlen hs

theorem C8_witness : Average ⟨[1, 2, 3], 3, 0, 0, 3⟩ = some 2 := by
  rw [C8_average_spec ⟨[1, 2, 3], 3, 0, 0, 3⟩ rfl (by decide)]
  norm_num [snapList, List.range_succ]

/-- Claim C9, refuted (code bug): `NewCircularBuffer` never validates its
capacity: with capacity `0` it returns a buffer (no rejection), and the
very first Insert on that buffer reaches the out-of-range slot read
`buffer[tail]` and the modulo-by-zero, modelled as `none` (a Go panic). -/
theorem C9_capacity_zero_not_rejected :
    NewCircularBuffer 0 = ⟨[], 0, 0, 0, 0⟩ ∧ Push (NewCircularBuffer 0) 1 = none :=
  ⟨by decide, by decide⟩

/-- Claim C10: `Average` and `Snapshot` take only a read lock and assign no
field, so a call leaves the state exactly as it was, and repeating the call
with no intervening mutation returns the identical result. -/
theorem C10_reads_idempotent (cb : CircularBuffer) :
    (∀ a cb₁, AverageCall cb = some (a, cb₁) →
      cb₁ = cb ∧ AverageCall cb₁ = some (a, cb₁)) ∧
    (∀ s cb₁, SnapshotCall cb = some (s, cb₁) →
      cb₁ = cb ∧ SnapshotCall cb₁ = some (s, cb₁)) := by
  constructor
  · intro a cb₁ h
    obtain ⟨a₀, hA, hpair⟩ := Option.map_eq_some'.mp h
    rw [Prod.ext_iff] at hpair
    obtain ⟨ha, hcb⟩ := hpair
    dsimp at ha hcb
    subst ha
    subst hcb
    exact ⟨rfl, by rw [AverageCall, hA]; rfl⟩
  · intro s cb₁ h
    obtain ⟨s₀, hS, hpair⟩ := Option.map_eq_some'.mp h
    rw [Prod.ext_iff] at hpair
    obtain ⟨hs, hcb⟩ := hpair
    dsimp at hs hcb
    subst hs
    subst hcb
    exact ⟨rfl, by rw [SnapshotCall, hS]; rfl⟩

theorem C10_witness :
    NewCircularBuffer 2 = NewCircularBuffer 2 ∧
      AverageCall (NewCircularBuffer 2) = some (0, NewCircularBuffer 2) :=
  (C10_reads_idempotent (NewCircularBuffer 2)).1 0 (NewCircularBuffer 2)
    (by decide)
